import Mathlib

/-!
Verification of `src/ytd.py` (an asynchronous YouTube video/audio downloader:
PyQt6 front end, a `DownloadThread` owning an asyncio event loop, and a
`Worker` coroutine that resolves a URL via pytubefix, selects a stream and
downloads it in an executor, reporting progress and completion through Qt
signals).

The Python source is shallowly embedded below.  Pure functions
(`is_valid_proxy`, the progress-percent computation) become Lean functions on
`List Char` / `Nat` / `Int`; the stateful `DownloadThread` becomes a record
with explicit state-passing operations; the behaviour of the external
collaborators (pytubefix's `YouTube` object and `stream.download`) is supplied
to `Worker.run` as explicit data (resolution outcome, stream list, progress
callback invocations, transfer outcome), so that `Worker.run` is a function
from that environment to the list of notifications it emits, in emission
order.
-/

namespace Ytd

/-! ### `is_valid_proxy` (src/ytd.py lines 28-41)

```python
def is_valid_proxy(proxy: str) -> bool:
    if not proxy:
        return True
    pattern = re.compile(
        r'^https?://'
        r'(?:(?:[a-zA-Z0-9\-\.]+)'
        r'(?:\:[0-9]{1,5})?)$'
    )
    return bool(pattern.match(proxy))
```

The regex is embedded as a deterministic scanner over the character list.
This is exact: the host class `[a-zA-Z0-9\-\.]` contains neither `:` nor any
character of the port class beyond what the maximal-munch prefix takes, so
backtracking never changes the accepted language.  Python's `$` also matches
just before a single trailing newline, which the embedding reproduces. -/

/-- A character of the regex class `[a-zA-Z0-9\-\.]` (hostname characters). -/
def isHostChar (c : Char) : Bool :=
  c.isAlpha || c.isDigit || c = '-' || c = '.'

/-- The scheme part `https?://`: strips `https://` or `http://`. -/
def stripScheme (cs : List Char) : Option (List Char) :=
  match cs with
  | 'h' :: 't' :: 't' :: 'p' :: 's' :: ':' :: '/' :: '/' :: r => some r
  | 'h' :: 't' :: 't' :: 'p' :: ':' :: '/' :: '/' :: r => some r
  | _ => none

/-- The part `(?:[a-zA-Z0-9\-\.]+)(?:\:[0-9]{1,5})?` matched against the whole rest:
a non-empty host, optionally followed by `:` and one to five digits. -/
def hostPortMatch (r : List Char) : Bool :=
  let host := r.takeWhile isHostChar
  let rest := r.dropWhile isHostChar
  !host.isEmpty &&
    match rest with
    | [] => true
    | ':' :: p => !p.isEmpty && decide (p.length ≤ 5) && p.all Char.isDigit
    | _ => false

/-- The whole anchored pattern `^https?://...$` against a character list.
Python's `$` matches at the very end, or just before a final `'\n'`. -/
def proxyPattern (cs : List Char) : Bool :=
  let core : List Char → Bool := fun l =>
    match stripScheme l with
    | none => false
    | some r => hostPortMatch r
  core cs || (cs.getLast? = some '\n' && core cs.dropLast)

/-- Embedding of `is_valid_proxy` (src/ytd.py lines 28-41): the empty string
is accepted outright (`if not proxy: return True`), otherwise the regex must
match. -/
def is_valid_proxy (proxy : String) : Bool :=
  if proxy.data.isEmpty then true
  else proxyPattern proxy.data

/-! ### Stream descriptors and stream selection (src/ytd.py lines 69-79)

```python
stream = (
    yt.streams.filter(progressive=True).order_by("resolution").desc().first()
    if self.fmt == "video"
    else yt.streams.filter(only_audio=True).order_by("abr").desc().first()
)
if not stream:
    raise RuntimeError("Подходящий поток не найден")
```

A pytubefix stream is abstracted to the attributes this code reads:
`progressive` (combined audio+video), `only_audio`, the quality keys
`resolution` and `abr` (as naturals: pytubefix orders them numerically), and
`filesize`. -/

/-- The field `self.fmt`: the string `"video"` or `"audio"` passed to the `Worker`. -/
inductive Fmt where
  | video
  | audio
deriving DecidableEq

/-- The attributes of a pytubefix stream object that `Worker.run` reads. -/
structure StreamDesc where
  progressive : Bool
  only_audio : Bool
  resolution : Nat
  abr : Nat
  filesize : Nat
deriving DecidableEq

/-- Embedding of `order_by(key).desc().first()`: pytubefix sorts ascending by the key with
a stable sort, reverses, and takes the head — i.e. it returns the LAST
element of the list attaining the maximum key (and `none` on an empty
list). -/
def maxByLast (key : StreamDesc → Nat) : List StreamDesc → Option StreamDesc
  | [] => none
  | x :: xs =>
    match maxByLast key xs with
    | none => some x
    | some m => if key m < key x then some x else some m

/-- Embedding of `yt.streams.filter(progressive=True)` resp. `filter(only_audio=True)`:
the kind-dependent filtering step. -/
def filteredStreams (fmt : Fmt) (streams : List StreamDesc) : List StreamDesc :=
  match fmt with
  | .video => streams.filter (fun s => s.progressive)
  | .audio => streams.filter (fun s => s.only_audio)

/-- The kind-dependent quality key: `"resolution"` for video,
`"abr"` for audio. -/
def qualityKey (fmt : Fmt) (s : StreamDesc) : Nat :=
  match fmt with
  | .video => s.resolution
  | .audio => s.abr

/-- The whole selection expression of src/ytd.py lines 70-77. -/
def selectStream (fmt : Fmt) (streams : List StreamDesc) : Option StreamDesc :=
  maxByLast (qualityKey fmt) (filteredStreams fmt streams)

/-! ### The progress callback (src/ytd.py lines 85-88)

```python
def _on_progress(stream_, chunk, bytes_remaining):
    nonlocal downloaded
    downloaded = total - bytes_remaining
    self.progress.emit(int(downloaded / total * 100))
```

`downloaded / total` is Python float true division: the exact rational is
rounded to the nearest IEEE-754 binary64 value, ties to even; `* 100` then
rounds the exact product the same way; `int(...)` truncates toward zero.
This double rounding is NOT the exact `floor(downloaded * 100 / total)`:
for example `int(58 / 100 * 100) = 57` because `58 / 100` rounds to a float
slightly below `0.58`.  When `total = 0` the division raises
`ZeroDivisionError` instead of emitting anything (the exception aborts the
transfer).

The binary64 semantics is modelled exactly, by integer arithmetic on
mantissa-exponent pairs `(m, e)` denoting the value `m * 2 ^ (e - 52)` with
`2 ^ 52 ≤ m ≤ 2 ^ 53`.  The operands here stay far inside the normal range
(no overflow, no subnormals, both operands exact integers), where each
float operation is exactly round-to-nearest-even of the exact rational
result.  All functions use structural recursion and `Nat`/`Int` arithmetic
only, so concrete percentages evaluate inside the kernel. -/

/-- Fuel-driven floor of the base-2 logarithm (`natLog2` below passes the
number itself as fuel, which always suffices); structural recursion so that
concrete values reduce in the kernel. -/
def log2F : Nat → Nat → Nat
  | 0, _ => 0
  | fuel + 1, n => if 2 ≤ n then log2F fuel (n / 2) + 1 else 0

/-- Floor of `log₂ n` for `n ≥ 1` (and `0` at `0`). -/
def natLog2 (n : Nat) : Nat := log2F n n

/-- Round the rational `N / D` (`D > 0`) to the nearest integer, ties to
even — the rounding of IEEE-754 binary64 arithmetic. -/
def rndHalfEven (N D : Nat) : Nat :=
  if 2 * (N % D) < D then N / D
  else if D < 2 * (N % D) then N / D + 1
  else if N / D % 2 = 0 then N / D else N / D + 1

/-- Floor of `log₂ (N / D)` for positive naturals `N`, `D`: start from the
difference of the integer logs and correct it downward when `2 ^ e₀`
exceeds `N / D`. -/
def floorLog2Rat (N D : Nat) : Int :=
  let e0 : Int := (natLog2 N : Int) - (natLog2 D : Int)
  if 0 ≤ e0 then (if D * 2 ^ e0.toNat ≤ N then e0 else e0 - 1)
  else (if D ≤ N * 2 ^ (-e0).toNat then e0 else e0 - 1)

/-- Binary64 rounding (round to nearest, ties to even, 53-bit mantissa) of
the positive rational `N / D`: a pair `(m, e)` denoting `m * 2 ^ (e - 52)`;
the exact value is scaled into `[2 ^ 52, 2 ^ 53)` and rounded to an
integer. -/
def flRat (N D : Nat) : Nat × Int :=
  let e := floorLog2Rat N D
  let s : Int := 52 - e
  if 0 ≤ s then (rndHalfEven (N * 2 ^ s.toNat) D, e)
  else (rndHalfEven N (D * 2 ^ (-s).toNat), e)

/-- The exact rational value denoted by a mantissa-exponent pair. -/
def dval (p : Nat × Int) : ℚ := (p.1 : ℚ) * 2 ^ (p.2 - 52)

/-- A fraction `(N, D)` whose value is `100 *` the value of `p`: the exact
product that the float multiplication `q * 100` rounds next. -/
def mul100Pair (p : Nat × Int) : Nat × Nat :=
  if 0 ≤ p.2 - 52 then (100 * p.1 * 2 ^ (p.2 - 52).toNat, 1)
  else (100 * p.1, 2 ^ (52 - p.2).toNat)

/-- Truncation of the (nonnegative) value of a mantissa-exponent pair to an
integer: the final `int(...)` conversion. -/
def truncPair (p : Nat × Int) : Nat :=
  if 0 ≤ p.2 - 52 then p.1 * 2 ^ (p.2 - 52).toNat
  else p.1 / 2 ^ (52 - p.2).toNat

/-- The percent `int(d / total * 100)` in Python binary64 float semantics,
for `0 ≤ d` and `total ≥ 1`: round `d / total` to a float, round the
product with `100`, truncate toward zero. -/
def pyFloatPct (d total : Nat) : Nat :=
  let q := flRat d total
  let m := mul100Pair q
  truncPair (flRat m.1 m.2)

/-- The integer the callback emits at line 88.  Python `int()` truncates
toward zero and float rounding is sign-symmetric, so a negative
`downloaded` (only possible when `bytes_remaining > total`) emits the
negated value of the computation on `|downloaded|`. -/
def progressValue (total bytesRemaining : Nat) : Int :=
  if bytesRemaining ≤ total then (pyFloatPct (total - bytesRemaining) total : Int)
  else -(pyFloatPct (bytesRemaining - total) total : Int)

/-- One invocation of `_on_progress`: `some pct` if a progress value is
emitted, `none` if the division by zero raises. -/
def onProgressEmit (total bytesRemaining : Nat) : Option Int :=
  if total = 0 then none else some (progressValue total bytesRemaining)

/-! ### Notifications and `Worker.run` (src/ytd.py lines 45-105) -/

/-- The structured content of a `finished` signal, one constructor per
emission site of `Worker.run`:
* `success` — line 102, `f"✅ Сохранено: {self.out_path}"`;
* `resolutionFailure d` — line 66, `f"❌ Ошибка при подключении к YouTube: {exc}"`
  (the `YouTube(...)` constructor raised with message `d`);
* `noStream` — the `RuntimeError("Подходящий поток не найден")` of line 79,
  caught at line 103;
* `transferFailure d` — any other exception in the second `try` block
  (stream enumeration or `stream.download`), caught at line 103. -/
inductive Outcome where
  | success (outPath : String)
  | resolutionFailure (detail : String)
  | noStream
  | transferFailure (detail : String)
deriving DecidableEq

/-- A signal emission of the `Worker`: `progress.emit` or `finished.emit`. -/
inductive Notif where
  | progress (pct : Int)
  | finished (o : Outcome)
deriving DecidableEq

/-- The exact string carried by the `finished` signal for each outcome,
as formatted at src/ytd.py lines 66, 102 and 105 (a `RuntimeError` formats
as its message, so the no-stream failure renders with the fixed detail
`"Подходящий поток не найден"`). -/
def notifText : Outcome → String
  | .success p => "✅ Сохранено: " ++ p
  | .resolutionFailure d => "❌ Ошибка при подключении к YouTube: " ++ d
  | .noStream => "❌ Ошибка при скачивании: Подходящий поток не найден"
  | .transferFailure d => "❌ Ошибка при скачивании: " ++ d

/-- True exactly on `finished` notifications. -/
def isFinishedB : Notif → Bool
  | .finished _ => true
  | _ => false

/-- True exactly on `progress` notifications. -/
def isProgressB : Notif → Bool
  | .progress _ => true
  | _ => false

/-- The percent values of the progress notifications of a stream of
notifications, in order. -/
def pvals (ns : List Notif) : List Int :=
  ns.filterMap (fun n => match n with | .progress p => some p | _ => none)

/-- Behaviour of the external world during one job, supplied as data:
* `constructorError` — `some d` if `YouTube(self.url, proxies=...)` raises
  with message `d` (src/ytd.py lines 60-63), `none` if it returns;
* `streamsResult` — what enumerating `yt.streams` yields: the list of
  stream descriptors, or `Except.error d` if the metadata fetch raises
  inside the second `try` block;
* `events` — the successive `bytes_remaining` arguments with which
  `stream.download` invokes the `on_progress` callback, in order;
* `transferError` — `some d` if `stream.download` itself raises with
  message `d` after the callback invocations, `none` if it returns. -/
structure MediaEnv where
  constructorError : Option String
  streamsResult : Except String (List StreamDesc)
  events : List Nat
  transferError : Option String

/-- The transfer phase: runs the `on_progress` callback on each event in
order, collecting the emitted `progress` notifications; returns the error
that ends the second `try` block, if any (either the `ZeroDivisionError`
raised inside the callback, which aborts the download, or the download's own
failure). -/
def emitLoop (total : Nat) (terr : Option String) : List Nat → List Notif × Option String
  | [] => ([], terr)
  | r :: rs =>
    match onProgressEmit total r with
    | none => ([], some "division by zero")
    | some p =>
      let t := emitLoop total terr rs
      (Notif.progress p :: t.1, t.2)

/-- The fields of the Python `Worker` object (src/ytd.py lines 50-55). -/
structure Worker where
  url : String
  out_path : String
  proxy : String
  fmt : Fmt

/-- Embedding of `Worker.run` (src/ytd.py lines 57-105): given the behaviour
of the external collaborators, the list of signal emissions of this job, in
emission order.

* If the `YouTube` constructor raises, one `finished(resolutionFailure)` is
  emitted and the coroutine returns (lines 64-67).
* Otherwise, inside the second `try`: if stream enumeration raises, the
  generic handler at lines 103-105 emits one `finished(transferFailure)`.
* If the selection expression yields no stream, line 79 raises
  `RuntimeError("Подходящий поток не найден")`, caught at line 103:
  one `finished(noStream)`.
* Otherwise the transfer runs: each callback invocation emits a `progress`,
  then exactly one `finished` — `success` (line 102) or `transferFailure`
  (line 105). -/
def Worker.run (w : Worker) (env : MediaEnv) : List Notif :=
  match env.constructorError with
  | some d => [.finished (.resolutionFailure d)]
  | none =>
    match env.streamsResult with
    | .error d => [.finished (.transferFailure d)]
    | .ok streams =>
      match selectStream w.fmt streams with
      | none => [.finished .noStream]
      | some st =>
        match (emitLoop st.filesize env.transferError env.events).2 with
        | none => (emitLoop st.filesize env.transferError env.events).1
            ++ [.finished (.success w.out_path)]
        | some d => (emitLoop st.filesize env.transferError env.events).1
            ++ [.finished (.transferFailure d)]

/-! ### `DownloadThread` (src/ytd.py lines 109-133)

```python
class DownloadThread(QThread):
    def __init__(self, parent=None):
        super().__init__(parent)
        self.loop = None
    def run(self):
        self.loop = asyncio.new_event_loop()
        asyncio.set_event_loop(self.loop)
        self.loop.run_forever()
    def schedule_task(self, coro):
        if not self.isRunning():
            raise RuntimeError("DownloadThread не запущен")
        return asyncio.run_coroutine_threadsafe(coro, self.loop)
    def stop(self):
        if self.loop and self.isRunning():
            self.loop.call_soon_threadsafe(self.loop.stop)
            self.wait()
```

The observable state is embedded as a record: `hasLoop` models
`self.loop is not None` (`run` sets it and nothing ever resets it),
`threadRunning` models `QThread.isRunning()`, `threadsSpawned` counts the OS
threads `QThread.start` actually spawned, and `scheduled` records the
coroutines handed to `run_coroutine_threadsafe`, by job id.  `start` is not
overridden in the source: it is inherited `QThread.start`, documented as
"If the thread is already running, this function does nothing"; otherwise it
spawns the thread, whose `run` method creates the loop and serves it
(sequentialised here into one step).  `stop`'s `wait()` returns once
`run_forever` has stopped and `run` has returned, after which
`isRunning()` is false; `self.loop` keeps its value. -/

/-- The error `schedule_task` raises:
`RuntimeError("DownloadThread не запущен")`. -/
inductive DTError where
  | notRunning
deriving DecidableEq

/-- Observable state of a `DownloadThread`. -/
structure DownloadThread where
  hasLoop : Bool
  threadRunning : Bool
  threadsSpawned : Nat
  scheduled : List Nat
deriving DecidableEq

/-- The state after `DownloadThread()` (src/ytd.py lines 114-116):
no loop, thread not running, nothing spawned or scheduled. -/
def DownloadThread.initState : DownloadThread :=
  { hasLoop := false, threadRunning := false, threadsSpawned := 0, scheduled := [] }

/-- Inherited `QThread.start`, plus the effect of `DownloadThread.run`
(src/ytd.py lines 118-122) on the started thread: a no-op when the thread is
already running, otherwise spawns one thread which creates the event loop and
runs it forever. -/
def DownloadThread.start (s : DownloadThread) : DownloadThread :=
  if s.threadRunning then s
  else { s with hasLoop := true, threadRunning := true,
                threadsSpawned := s.threadsSpawned + 1 }

/-- Embedding of `DownloadThread.schedule_task` (src/ytd.py lines 124-128): raises
`RuntimeError` when `isRunning()` is false, otherwise hands the coroutine to
the loop and returns the new state. -/
def DownloadThread.schedule_task (s : DownloadThread) (job : Nat) :
    Except DTError DownloadThread :=
  if !s.threadRunning then .error .notRunning
  else .ok { s with scheduled := s.scheduled ++ [job] }

/-- Embedding of `DownloadThread.stop` (src/ytd.py lines 130-133): when a loop exists and
the thread is running, stops the loop and waits for the thread to exit;
otherwise does nothing.  Never raises. -/
def DownloadThread.stop (s : DownloadThread) : DownloadThread :=
  if s.hasLoop && s.threadRunning then { s with threadRunning := false } else s

/-! ### Spec-side definitions, for comparison with the code

The specification states the progress formula as
`percent = floor(bytesDownloaded / totalBytes * 100)`, clamped to `[0, 100]`.
These definitions follow the spec's words; the theorems below compare the
code's `onProgressEmit` against them. -/

/-- Clamping to the interval `[0, 100]`, as the spec words it. -/
def clamp100 (x : Int) : Int := min 100 (max 0 x)

/-- The spec's percent formula: `floor(d / t * 100)` (for `t > 0` this is the
natural-number division `d * 100 / t`) clamped to `[0, 100]`. -/
def specPercent (d t : Nat) : Int := clamp100 ((d * 100 / t : Nat) : Int)

/-! ### Concrete descriptors for the selection scenario of the spec:
two audio-only streams of bitrates 128 and 256, and one combined
audio+video stream. -/

/-- An audio-only descriptor with bitrate 128. -/
def audio128 : StreamDesc := ⟨false, true, 0, 128, 1000⟩

/-- An audio-only descriptor with bitrate 256. -/
def audio256 : StreamDesc := ⟨false, true, 0, 256, 2000⟩

/-- A combined audio+video (progressive) descriptor, resolution 720. -/
def video720 : StreamDesc := ⟨true, false, 720, 0, 5000⟩

/-! ## Helper lemmas -/

/-- Every notification produced by the transfer loop is a `progress`. -/
theorem emitLoop_all_progress (total : Nat) (terr : Option String) :
    ∀ events : List Nat, (emitLoop total terr events).1.all isProgressB = true := by
  intro events
  induction events with
  | nil => rfl
  | cons r rs ih =>
    simp only [emitLoop]
    cases h : onProgressEmit total r with
    | none => rfl
    | some p => simpa [isProgressB] using ih

/-- The transfer loop contains no `finished` notification. -/
theorem emitLoop_no_finished (total : Nat) (terr : Option String)
    (events : List Nat) : (emitLoop total terr events).1.countP isFinishedB = 0 := by
  rw [List.countP_eq_zero]
  intro a ha
  have hall := List.all_eq_true.mp (emitLoop_all_progress total terr events) a ha
  cases a with
  | progress p => simp [isFinishedB]
  | finished o => simp [isProgressB] at hall

/-- A list of progress notifications followed by one terminal notification
has exactly one `finished`, placed last, with only `progress` before it. -/
theorem progress_then_terminal (pns : List Notif) (o : Outcome)
    (hc : pns.countP isFinishedB = 0) (ha : pns.all isProgressB = true) :
    (pns ++ [Notif.finished o]).countP isFinishedB = 1
    ∧ (pns ++ [Notif.finished o]).getLast? = some (Notif.finished o)
    ∧ (pns ++ [Notif.finished o]).dropLast.all isProgressB = true := by
  refine ⟨?_, List.getLast?_concat _, ?_⟩
  · rw [List.countP_append, hc]
    rfl
  · rw [List.dropLast_concat]
    exact ha

/-- The selector `maxByLast` yields `none` only on the empty list. -/
theorem maxByLast_eq_none (key : StreamDesc → Nat) :
    ∀ l : List StreamDesc, maxByLast key l = none → l = []
  | [], _ => rfl
  | x :: xs, h => by
    simp only [maxByLast] at h
    cases hm : maxByLast key xs with
    | none => rw [hm] at h; exact absurd h (by simp)
    | some m =>
      rw [hm] at h
      dsimp only at h
      by_cases hk : key m < key x
      · rw [if_pos hk] at h; exact absurd h (by simp)
      · rw [if_neg hk] at h; exact absurd h (by simp)

/-- The selector `maxByLast` returns an element of its input list. -/
theorem maxByLast_mem (key : StreamDesc → Nat) :
    ∀ (l : List StreamDesc) (s : StreamDesc), maxByLast key l = some s → s ∈ l
  | [], s, h => by simp [maxByLast] at h
  | x :: xs, s, h => by
    simp only [maxByLast] at h
    cases hm : maxByLast key xs with
    | none =>
      rw [hm] at h
      injection h with h
      subst h
      exact List.mem_cons_self x xs
    | some m =>
      rw [hm] at h
      dsimp only at h
      by_cases hk : key m < key x
      · rw [if_pos hk] at h
        injection h with h
        subst h
        exact List.mem_cons_self x xs
      · rw [if_neg hk] at h
        injection h with h
        subst h
        exact List.mem_cons_of_mem x (maxByLast_mem key xs m hm)

/-- The selector `maxByLast` returns an element whose key is maximal in the list. -/
theorem maxByLast_le (key : StreamDesc → Nat) :
    ∀ (l : List StreamDesc) (s : StreamDesc), maxByLast key l = some s →
      ∀ t ∈ l, key t ≤ key s
  | [], s, h => by simp [maxByLast] at h
  | x :: xs, s, h => by
    intro t ht
    simp only [maxByLast] at h
    cases hm : maxByLast key xs with
    | none =>
      rw [hm] at h
      injection h with h
      subst h
      rcases List.mem_cons.mp ht with rfl | h1
      · exact le_refl _
      · rw [maxByLast_eq_none key xs hm] at h1
        simp at h1
    | some m =>
      rw [hm] at h
      dsimp only at h
      by_cases hk : key m < key x
      · rw [if_pos hk] at h
        injection h with h
        subst h
        rcases List.mem_cons.mp ht with rfl | h1
        · exact le_refl _
        · exact le_of_lt (lt_of_le_of_lt (maxByLast_le key xs m hm t h1) hk)
      · rw [if_neg hk] at h
        injection h with h
        subst h
        rcases List.mem_cons.mp ht with rfl | h1
        · exact le_of_not_lt hk
        · exact maxByLast_le key xs m hm t h1

/-- The natural-number percent is at most 100 when `d ≤ t` and `t ≠ 0`. -/
theorem natPct_le_100 (d t : Nat) (ht : t ≠ 0) (hd : d ≤ t) :
    d * 100 / t ≤ 100 := by
  have h1 : d * 100 ≤ t * 100 := Nat.mul_le_mul_right 100 hd
  calc d * 100 / t ≤ t * 100 / t := Nat.div_le_div_right h1
    _ = 100 := Nat.mul_div_cancel_left 100 (Nat.pos_of_ne_zero ht)

/-- When `total ≠ 0`, the transfer loop emits one progress value per callback
invocation, namely the callback's percentage. -/
theorem emitLoop_pvals (total : Nat) (terr : Option String) (h : total ≠ 0) :
    ∀ events : List Nat,
      pvals (emitLoop total terr events).1
        = events.map (fun r : Nat => progressValue total r) := by
  intro events
  induction events with
  | nil => rfl
  | cons r rs ih =>
    simp only [emitLoop, onProgressEmit, if_neg h]
    simpa [pvals] using ih

/-! ## Correctness of the binary64 model

The lemmas below establish what the amended C3 needs about the float
pipeline: each rounding step is within half an ulp of its exact input,
rounding is monotone, and the final truncation is the floor of the rounded
value.  Everything is phrased over `ℚ`, with the mantissa-exponent pair
`(m, e)` denoting `m * 2 ^ (e - 52)`. -/

/-- With enough fuel, `log2F` computes the floor of the base-2 logarithm. -/
theorem log2F_spec : ∀ (fuel n : Nat), n ≤ fuel → 1 ≤ n →
    2 ^ log2F fuel n ≤ n ∧ n < 2 ^ (log2F fuel n + 1)
  | 0, n, hle, h1 => by omega
  | fuel + 1, n, hle, h1 => by
    simp only [log2F]
    by_cases h2 : 2 ≤ n
    · rw [if_pos h2]
      obtain ⟨hlo, hhi⟩ := log2F_spec fuel (n / 2) (by omega) (by omega)
      have hp : 2 ^ (log2F fuel (n / 2) + 1) = 2 * 2 ^ log2F fuel (n / 2) := by
        rw [pow_succ]; ring
      have hp2 : 2 ^ (log2F fuel (n / 2) + 1 + 1) = 2 * 2 ^ (log2F fuel (n / 2) + 1) := by
        rw [pow_succ _ (log2F fuel (n / 2) + 1)]; ring
      omega
    · rw [if_neg h2]
      omega

/-- The characterization of `natLog2` on positive input. -/
theorem natLog2_spec (n : Nat) (h : 0 < n) :
    2 ^ natLog2 n ≤ n ∧ n < 2 ^ (natLog2 n + 1) :=
  log2F_spec n n (le_refl n) h

/-- Rounding never falls below the floor. -/
theorem div_le_rnd (N D : Nat) : N / D ≤ rndHalfEven N D := by
  unfold rndHalfEven
  split_ifs <;> omega

/-- Rounding never exceeds the floor plus one. -/
theorem rnd_le_div_succ (N D : Nat) : rndHalfEven N D ≤ N / D + 1 := by
  unfold rndHalfEven
  split_ifs <;> omega

/-- Rounding of `0` is `0`. -/
theorem rnd_zero (D : Nat) (hD : 0 < D) : rndHalfEven 0 D = 0 := by
  unfold rndHalfEven
  rw [Nat.zero_mod, Nat.zero_div]
  rw [if_pos (by omega)]

/-- If the rational is at most `M`, so is its rounding. -/
theorem rnd_le (N D M : Nat) (hD : 0 < D) (h : N ≤ M * D) : rndHalfEven N D ≤ M := by
  have hq : N / D ≤ M := by
    have := Nat.div_le_div_right (c := D) h
    rwa [Nat.mul_div_cancel M hD] at this
  by_cases hqM : N / D = M
  · have hmod : D * (N / D) + N % D = N := Nat.div_add_mod N D
    have hcomm : D * M = M * D := Nat.mul_comm D M
    have h0 : N % D = 0 := by rw [hqM] at hmod; omega
    unfold rndHalfEven
    rw [h0]
    rw [if_pos (by omega)]
    omega
  · have := rnd_le_div_succ N D
    omega

/-- If the rational is at least `M`, so is its rounding. -/
theorem le_rnd (N D M : Nat) (hD : 0 < D) (h : M * D ≤ N) : M ≤ rndHalfEven N D := by
  have hq : M ≤ N / D := (Nat.le_div_iff_mul_le hD).mpr h
  have := div_le_rnd N D
  omega

/-- Integer form of the half-ulp error bound: the rounding is within `1/2`
of `N / D`. -/
theorem rnd_bounds (N D : Nat) (hD : 0 < D) :
    2 * N ≤ 2 * (D * rndHalfEven N D) + D ∧ 2 * (D * rndHalfEven N D) ≤ 2 * N + D := by
  have hmod : D * (N / D) + N % D = N := Nat.div_add_mod N D
  have hr : N % D < D := Nat.mod_lt N hD
  have hd1 : D * (N / D + 1) = D * (N / D) + D := by ring
  unfold rndHalfEven
  split_ifs <;> omega

/-- Division with cross-multiplied hypotheses is monotone. -/
theorem div_cross_mono (N1 D1 N2 D2 : Nat) (hD1 : 0 < D1) (hD2 : 0 < D2)
    (h : N1 * D2 ≤ N2 * D1) : N1 / D1 ≤ N2 / D2 := by
  rw [Nat.le_div_iff_mul_le hD2]
  have h1 : N1 / D1 * D1 ≤ N1 := Nat.div_mul_le_self N1 D1
  have h2 : N1 / D1 * D1 * D2 ≤ N1 * D2 := Nat.mul_le_mul_right D2 h1
  have h3 : N1 / D1 * D1 * D2 = N1 / D1 * D2 * D1 := by ring
  have h4 : N1 / D1 * D2 * D1 ≤ N2 * D1 := by omega
  exact Nat.le_of_mul_le_mul_right h4 hD1

/-- Round-to-nearest-even is monotone (cross-multiplied form). -/
theorem rnd_mono (N1 D1 N2 D2 : Nat) (hD1 : 0 < D1) (hD2 : 0 < D2)
    (h : N1 * D2 ≤ N2 * D1) : rndHalfEven N1 D1 ≤ rndHalfEven N2 D2 := by
  have hq : N1 / D1 ≤ N2 / D2 := div_cross_mono N1 D1 N2 D2 hD1 hD2 h
  rcases Nat.lt_or_ge (N1 / D1) (N2 / D2) with hlt | hge
  · have ha := rnd_le_div_succ N1 D1
    have hb := div_le_rnd N2 D2
    omega
  · have heq : N1 / D1 = N2 / D2 := le_antisymm hq hge
    have hmod1 : D1 * (N1 / D1) + N1 % D1 = N1 := Nat.div_add_mod N1 D1
    have hmod2 : D2 * (N2 / D2) + N2 % D2 = N2 := Nat.div_add_mod N2 D2
    have hfrac : N1 % D1 * D2 ≤ N2 % D2 * D1 := by
      have e1 : N1 * D2 = D1 * (N1 / D1) * D2 + N1 % D1 * D2 := by
        conv_lhs => rw [← hmod1]
        ring
      have e2 : N2 * D1 = D2 * (N2 / D2) * D1 + N2 % D2 * D1 := by
        conv_lhs => rw [← hmod2]
        ring
      have e3 : D1 * (N1 / D1) * D2 = D2 * (N2 / D2) * D1 := by rw [heq]; ring
      omega
    have hfrac2 : 2 * (N1 % D1) * D2 ≤ 2 * (N2 % D2) * D1 := by
      have a1 : 2 * (N1 % D1) * D2 = 2 * (N1 % D1 * D2) := by ring
      have a2 : 2 * (N2 % D2) * D1 = 2 * (N2 % D2 * D1) := by ring
      omega
    have key1 : D1 ≤ 2 * (N1 % D1) → 2 * (N2 % D2) < D2 → False := by
      intro ha hb
      have c1 : D1 * D2 ≤ 2 * (N1 % D1) * D2 := Nat.mul_le_mul_right D2 ha
      have c2 : 2 * (N2 % D2) * D1 < D2 * D1 := Nat.mul_lt_mul_of_lt_of_le hb (le_refl D1) hD1
      have c3 : D1 * D2 = D2 * D1 := Nat.mul_comm D1 D2
      omega
    have key3 : D1 < 2 * (N1 % D1) → 2 * (N2 % D2) = D2 → False := by
      intro ha hb
      have c1 : D1 * D2 < 2 * (N1 % D1) * D2 := Nat.mul_lt_mul_of_lt_of_le ha (le_refl D2) hD2
      have c2 : 2 * (N2 % D2) * D1 = D2 * D1 := by rw [hb]
      have c3 : D1 * D2 = D2 * D1 := Nat.mul_comm D1 D2
      omega
    unfold rndHalfEven
    split_ifs <;>
      first
        | omega
        | exact absurd trivial (fun _ => key1 (by omega) (by omega))
        | exact absurd trivial (fun _ => key3 (by omega) (by omega))

/-- Half-ulp error of integer rounding, in `ℚ`. -/
theorem rnd_err_q (N D : Nat) (hD : 0 < D) :
    |(rndHalfEven N D : ℚ) - (N : ℚ) / D| ≤ 1 / 2 := by
  obtain ⟨h1, h2⟩ := rnd_bounds N D hD
  have hDq : (0:ℚ) < D := by exact_mod_cast hD
  rw [abs_sub_le_iff]
  constructor
  · rw [sub_le_iff_le_add]
    rw [show (1:ℚ)/2 + (N:ℚ)/D = (2*(N:ℚ) + D) / (2*(D:ℚ)) from by field_simp; ring]
    rw [le_div_iff (by positivity)]
    have hc : ((2 * (D * rndHalfEven N D) : ℕ) : ℚ) ≤ ((2 * N + D : ℕ) : ℚ) := by
      exact_mod_cast h2
    push_cast at hc
    linarith
  · rw [sub_le_iff_le_add]
    rw [show (1:ℚ)/2 + (rndHalfEven N D : ℚ)
        = (2*((D:ℚ) * rndHalfEven N D) + D) / (2*(D:ℚ)) from by field_simp; ring]
    rw [le_div_iff (by positivity)]
    have hc : ((2 * N : ℕ) : ℚ) ≤ ((2 * (D * rndHalfEven N D) + D : ℕ) : ℚ) := by
      exact_mod_cast h1
    push_cast at hc
    have hfield : (N:ℚ)/D * (2*(D:ℚ)) = 2*(N:ℚ) := by field_simp; ring
    linarith

/-- The nonnegative-exponent comparison `2 ^ e ≤ N / D`, in integers. -/
theorem pow2_le_ratio_nonneg (e : Int) (he : 0 ≤ e) (N D : Nat) (hD : 0 < D) :
    (D * 2 ^ e.toNat ≤ N) ↔ (2:ℚ) ^ e ≤ (N:ℚ) / D := by
  have hDq : (0:ℚ) < D := by exact_mod_cast hD
  rw [le_div_iff hDq, ← Int.toNat_of_nonneg he, zpow_natCast]
  constructor
  · intro h
    have h3 : ((D * 2 ^ e.toNat : ℕ) : ℚ) ≤ (N : ℚ) := by exact_mod_cast h
    push_cast at h3
    linarith
  · intro h
    have h3 : (((2 ^ e.toNat * D : ℕ)) : ℚ) ≤ (N : ℚ) := by push_cast; linarith
    have h4 : 2 ^ e.toNat * D ≤ N := by exact_mod_cast h3
    rw [Nat.mul_comm]
    exact h4

/-- The negative-exponent comparison `2 ^ e ≤ N / D`, in integers. -/
theorem pow2_le_ratio_neg (e : Int) (he : e < 0) (N D : Nat) (hD : 0 < D) :
    (D ≤ N * 2 ^ (-e).toNat) ↔ (2:ℚ) ^ e ≤ (N:ℚ) / D := by
  have hDq : (0:ℚ) < D := by exact_mod_cast hD
  have hp : (0:ℚ) < (2:ℚ) ^ (-e).toNat := by positivity
  have hkey : (2:ℚ) ^ e * (2:ℚ) ^ ((-e).toNat) = 1 := by
    have ht : ((-e).toNat : ℤ) = -e := Int.toNat_of_nonneg (by omega)
    rw [← zpow_natCast (2:ℚ) (-e).toNat, ht, ← zpow_add₀ (by norm_num : (2:ℚ) ≠ 0)]
    simp
  constructor
  · intro h
    rw [le_div_iff hDq]
    have h2 : (D:ℚ) ≤ (N:ℚ) * (2:ℚ) ^ (-e).toNat := by exact_mod_cast h
    calc (2:ℚ) ^ e * D ≤ (2:ℚ) ^ e * ((N:ℚ) * (2:ℚ) ^ (-e).toNat) := by
          apply mul_le_mul_of_nonneg_left h2 (by positivity)
      _ = (N:ℚ) * ((2:ℚ) ^ e * (2:ℚ) ^ (-e).toNat) := by ring
      _ = (N:ℚ) := by rw [hkey]; ring
  · intro h
    rw [le_div_iff hDq] at h
    have h2 : (D:ℚ) ≤ (N:ℚ) * (2:ℚ) ^ (-e).toNat := by
      calc (D:ℚ) = ((2:ℚ) ^ e * D) * (2:ℚ) ^ (-e).toNat := by
            rw [show ((2:ℚ) ^ e * (D:ℚ)) * (2:ℚ) ^ (-e).toNat
                = (D:ℚ) * ((2:ℚ) ^ e * (2:ℚ) ^ (-e).toNat) from by ring, hkey]
            ring
        _ ≤ (N:ℚ) * (2:ℚ) ^ (-e).toNat := mul_le_mul_of_nonneg_right h (le_of_lt hp)
    exact_mod_cast h2

/-- The exponent computed by `floorLog2Rat` brackets the ratio:
`2 ^ e ≤ N / D < 2 ^ (e + 1)`. -/
theorem floorLog2Rat_spec (N D : Nat) (hN : 0 < N) (hD : 0 < D) :
    (2:ℚ) ^ floorLog2Rat N D ≤ (N:ℚ) / D ∧ (N:ℚ) / D < 2 ^ (floorLog2Rat N D + 1) := by
  obtain ⟨hNlo, hNhi⟩ := natLog2_spec N hN
  obtain ⟨hDlo, hDhi⟩ := natLog2_spec D hD
  have hDq : (0:ℚ) < D := by exact_mod_cast hD
  have hNq : (0:ℚ) < N := by exact_mod_cast hN
  have qNlo : (2:ℚ) ^ ((natLog2 N : ℤ)) ≤ N := by
    rw [zpow_natCast]; exact_mod_cast hNlo
  have qNhi : (N:ℚ) < 2 ^ ((natLog2 N : ℤ) + 1) := by
    rw [show (natLog2 N : ℤ) + 1 = ((natLog2 N + 1 : ℕ) : ℤ) from by push_cast; ring,
      zpow_natCast]
    exact_mod_cast hNhi
  have qDlo : (2:ℚ) ^ ((natLog2 D : ℤ)) ≤ D := by
    rw [zpow_natCast]; exact_mod_cast hDlo
  have qDhi : (D:ℚ) < 2 ^ ((natLog2 D : ℤ) + 1) := by
    rw [show (natLog2 D : ℤ) + 1 = ((natLog2 D + 1 : ℕ) : ℤ) from by push_cast; ring,
      zpow_natCast]
    exact_mod_cast hDhi
  have hA : (0:ℚ) < (2:ℚ) ^ ((natLog2 D : ℤ)) := by positivity
  have hB : (0:ℚ) < (2:ℚ) ^ ((natLog2 D : ℤ) + 1) := by positivity
  have hup : (N:ℚ)/D < 2 ^ ((natLog2 N : ℤ) - (natLog2 D : ℤ) + 1) := by
    have h1 : (N:ℚ)/D ≤ (N:ℚ) / 2 ^ ((natLog2 D : ℤ)) := by
      apply div_le_div_of_nonneg_left (le_of_lt hNq) hA qDlo
    have h2 : (N:ℚ) / 2 ^ ((natLog2 D : ℤ)) < 2 ^ ((natLog2 N : ℤ) + 1) / 2 ^ ((natLog2 D : ℤ)) :=
      (div_lt_div_right hA).mpr qNhi
    have h3 : (2:ℚ) ^ ((natLog2 N : ℤ) + 1) / 2 ^ ((natLog2 D : ℤ))
        = 2 ^ ((natLog2 N : ℤ) - (natLog2 D : ℤ) + 1) := by
      rw [← zpow_sub₀ (by norm_num : (2:ℚ) ≠ 0)]
      congr 1
      ring
    calc (N:ℚ)/D ≤ (N:ℚ) / 2 ^ ((natLog2 D : ℤ)) := h1
      _ < 2 ^ ((natLog2 N : ℤ) + 1) / 2 ^ ((natLog2 D : ℤ)) := h2
      _ = 2 ^ ((natLog2 N : ℤ) - (natLog2 D : ℤ) + 1) := h3
  have hlow : (2:ℚ) ^ ((natLog2 N : ℤ) - (natLog2 D : ℤ) - 1) < (N:ℚ)/D := by
    have h1 : (N:ℚ) / 2 ^ ((natLog2 D : ℤ) + 1) < (N:ℚ)/D := by
      apply div_lt_div_of_pos_left hNq hDq qDhi
    have h2 : (2:ℚ) ^ ((natLog2 N : ℤ)) / 2 ^ ((natLog2 D : ℤ) + 1)
        ≤ (N:ℚ) / 2 ^ ((natLog2 D : ℤ) + 1) :=
      (div_le_div_right hB).mpr qNlo
    have h3 : (2:ℚ) ^ ((natLog2 N : ℤ)) / 2 ^ ((natLog2 D : ℤ) + 1)
        = 2 ^ ((natLog2 N : ℤ) - (natLog2 D : ℤ) - 1) := by
      rw [← zpow_sub₀ (by norm_num : (2:ℚ) ≠ 0)]
      congr 1
      ring
    calc (2:ℚ) ^ ((natLog2 N : ℤ) - (natLog2 D : ℤ) - 1)
        = (2:ℚ) ^ ((natLog2 N : ℤ)) / 2 ^ ((natLog2 D : ℤ) + 1) := h3.symm
      _ ≤ (N:ℚ) / 2 ^ ((natLog2 D : ℤ) + 1) := h2
      _ < (N:ℚ)/D := h1
  simp only [floorLog2Rat]
  by_cases hsign : 0 ≤ (natLog2 N : ℤ) - (natLog2 D : ℤ)
  · rw [if_pos hsign]
    by_cases htest : D * 2 ^ ((natLog2 N : ℤ) - (natLog2 D : ℤ)).toNat ≤ N
    · rw [if_pos htest]
      exact ⟨(pow2_le_ratio_nonneg _ hsign N D hD).mp htest, hup⟩
    · rw [if_neg htest]
      constructor
      · exact le_of_lt hlow
      · rw [show (natLog2 N : ℤ) - (natLog2 D : ℤ) - 1 + 1
            = (natLog2 N : ℤ) - (natLog2 D : ℤ) from by ring]
        by_contra hcon
        push_neg at hcon
        exact htest ((pow2_le_ratio_nonneg _ hsign N D hD).mpr hcon)
  · rw [if_neg hsign]
    push_neg at hsign
    by_cases htest : D ≤ N * 2 ^ (-((natLog2 N : ℤ) - (natLog2 D : ℤ))).toNat
    · rw [if_pos htest]
      exact ⟨(pow2_le_ratio_neg _ hsign N D hD).mp htest, hup⟩
    · rw [if_neg htest]
      constructor
      · exact le_of_lt hlow
      · rw [show (natLog2 N : ℤ) - (natLog2 D : ℤ) - 1 + 1
            = (natLog2 N : ℤ) - (natLog2 D : ℤ) from by ring]
        by_contra hcon
        push_neg at hcon
        exact htest ((pow2_le_ratio_neg _ hsign N D hD).mpr hcon)

/-- The positive branch of `flRat`, explicitly. -/
theorem flRat_eq_pos (N D : Nat) (hs : 0 ≤ 52 - floorLog2Rat N D) :
    flRat N D
      = (rndHalfEven (N * 2 ^ (52 - floorLog2Rat N D).toNat) D, floorLog2Rat N D) := by
  simp only [flRat]
  rw [if_pos hs]

/-- The negative branch of `flRat`, explicitly. -/
theorem flRat_eq_neg (N D : Nat) (hs : ¬ 0 ≤ 52 - floorLog2Rat N D) :
    flRat N D
      = (rndHalfEven N (D * 2 ^ (-(52 - floorLog2Rat N D)).toNat), floorLog2Rat N D) := by
  simp only [flRat]
  rw [if_neg hs]

/-- Rounding a scaled representation `Np / Dp = X * S` of the value `X`:
the rounded mantissa is within half an ulp of `X * S`, and lies in
`[2^52, 2^53]`. -/
theorem rnd_scaled (Np Dp : Nat) (hDp : 0 < Dp) (X S : ℚ) (hS : 0 < S)
    (hfrac : (Np:ℚ)/Dp = X * S)
    (hlo2 : (2:ℚ)^(52:ℕ) ≤ X * S) (hhi2 : X * S < (2:ℚ)^(53:ℕ)) :
    |(rndHalfEven Np Dp : ℚ) * S⁻¹ - X| ≤ S⁻¹ / 2
    ∧ 2^52 ≤ rndHalfEven Np Dp ∧ rndHalfEven Np Dp ≤ 2^53 := by
  have hDq : (0:ℚ) < Dp := by exact_mod_cast hDp
  have herr := rnd_err_q Np Dp hDp
  rw [hfrac] at herr
  refine ⟨?_, ?_, ?_⟩
  · have h1 : (rndHalfEven Np Dp : ℚ) * S⁻¹ - X
        = ((rndHalfEven Np Dp : ℚ) - X * S) * S⁻¹ := by
      field_simp
      ring
    rw [h1, abs_mul, abs_of_pos (by positivity : (0:ℚ) < S⁻¹)]
    calc |(rndHalfEven Np Dp : ℚ) - X * S| * S⁻¹ ≤ (1/2) * S⁻¹ :=
          mul_le_mul_of_nonneg_right herr (by positivity)
      _ = S⁻¹ / 2 := by ring
  · apply le_rnd _ _ _ hDp
    have hq : (2:ℚ)^(52:ℕ) ≤ (Np:ℚ)/Dp := by rw [hfrac]; exact hlo2
    rw [le_div_iff hDq] at hq
    have hc : ((2^52 * Dp : ℕ) : ℚ) ≤ (Np : ℚ) := by push_cast; linarith
    exact_mod_cast hc
  · apply rnd_le _ _ _ hDp
    have hq : (Np:ℚ)/Dp < (2:ℚ)^(53:ℕ) := by rw [hfrac]; exact hhi2
    rw [div_lt_iff hDq] at hq
    have hc : (Np : ℚ) ≤ ((2^53 * Dp : ℕ) : ℚ) := by push_cast; linarith
    exact_mod_cast hc

/-- The master correctness lemma for `flRat` on positive input: the denoted
value is within half an ulp (`2 ^ (e - 53)`) of the exact rational, the
mantissa lies in `[2^52, 2^53]`, and the exponent is `floorLog2Rat`. -/
theorem flRat_master (N D : Nat) (hN : 0 < N) (hD : 0 < D) :
    |dval (flRat N D) - (N:ℚ)/D| ≤ (2:ℚ) ^ (floorLog2Rat N D - 53)
    ∧ 2 ^ 52 ≤ (flRat N D).1 ∧ (flRat N D).1 ≤ 2 ^ 53
    ∧ (flRat N D).2 = floorLog2Rat N D := by
  obtain ⟨hlo, hhi⟩ := floorLog2Rat_spec N D hN hD
  have hDq : (0:ℚ) < D := by exact_mod_cast hD
  have hNq : (0:ℚ) < N := by exact_mod_cast hN
  set e := floorLog2Rat N D with he
  have hSpos : (0:ℚ) < (2:ℚ) ^ (52 - e) := by positivity
  have hSne : (2:ℚ) ^ (52 - e) ≠ 0 := ne_of_gt hSpos
  have hlo2 : (2:ℚ)^(52:ℕ) ≤ ((N:ℚ)/D) * (2:ℚ)^(52 - e) := by
    calc (2:ℚ)^(52:ℕ) = (2:ℚ)^e * (2:ℚ)^(52 - e) := by
          rw [← zpow_add₀ (by norm_num : (2:ℚ) ≠ 0)]
          rw [show e + (52 - e) = ((52:ℕ):ℤ) from by push_cast; ring]
          rw [zpow_natCast]
      _ ≤ ((N:ℚ)/D) * (2:ℚ)^(52 - e) :=
          mul_le_mul_of_nonneg_right hlo (le_of_lt hSpos)
  have hhi2 : ((N:ℚ)/D) * (2:ℚ)^(52 - e) < (2:ℚ)^(53:ℕ) := by
    calc ((N:ℚ)/D) * (2:ℚ)^(52 - e) < (2:ℚ)^(e+1) * (2:ℚ)^(52 - e) :=
          mul_lt_mul_of_pos_right hhi hSpos
      _ = (2:ℚ)^(53:ℕ) := by
          rw [← zpow_add₀ (by norm_num : (2:ℚ) ≠ 0)]
          rw [show e + 1 + (52 - e) = ((53:ℕ):ℤ) from by push_cast; ring]
          rw [zpow_natCast]
  have hconv : (2:ℚ) ^ (e - 52) = ((2:ℚ)^(52 - e))⁻¹ := by
    rw [← zpow_neg]
    congr 1
    ring
  have hconv2 : (2:ℚ) ^ (e - 53) = ((2:ℚ)^(52 - e))⁻¹ / 2 := by
    have hstep : (2:ℚ) ^ (e - 52) = (2:ℚ) ^ (e - 53) * 2 := by
      rw [show e - 52 = (e - 53) + 1 from by ring]
      rw [zpow_add_one₀ (by norm_num : (2:ℚ) ≠ 0)]
    rw [← hconv, hstep]
    ring
  by_cases hs : 0 ≤ 52 - e
  · have hfl := flRat_eq_pos N D (he ▸ hs)
    rw [← he] at hfl
    have hfrac : ((N * 2 ^ (52 - e).toNat : ℕ):ℚ) / D
        = ((N:ℚ)/D) * (2:ℚ)^(52 - e) := by
      push_cast
      rw [← zpow_natCast (2:ℚ) ((52 - e).toNat), Int.toNat_of_nonneg hs]
      ring
    obtain ⟨herr, hm1, hm2⟩ := rnd_scaled _ D hD ((N:ℚ)/D) ((2:ℚ)^(52 - e))
      hSpos hfrac hlo2 hhi2
    rw [hfl]
    refine ⟨?_, hm1, hm2, rfl⟩
    simp only [dval]
    rw [hconv, hconv2]
    exact herr
  · have hfl := flRat_eq_neg N D (he ▸ hs)
    rw [← he] at hfl
    have hDp : 0 < D * 2 ^ (-(52 - e)).toNat := by positivity
    have hpow : ((2 ^ (-(52 - e)).toNat : ℕ) : ℚ) = ((2:ℚ) ^ (52 - e))⁻¹ := by
      push_cast
      rw [← zpow_natCast (2:ℚ) ((-(52 - e)).toNat), Int.toNat_of_nonneg (by omega)]
      exact zpow_neg 2 (52 - e)
    have hDcast : ((D * 2 ^ (-(52 - e)).toNat : ℕ) : ℚ)
        = (D:ℚ) * ((2:ℚ) ^ (52 - e))⁻¹ := by
      rw [Nat.cast_mul, hpow]
    have hDne : (D:ℚ) ≠ 0 := ne_of_gt hDq
    have hfrac : ((N : ℕ):ℚ) / ((D * 2 ^ (-(52 - e)).toNat : ℕ) : ℚ)
        = ((N:ℚ)/D) * (2:ℚ)^(52 - e) := by
      rw [hDcast]
      field_simp
    obtain ⟨herr, hm1, hm2⟩ := rnd_scaled N _ hDp ((N:ℚ)/D) ((2:ℚ)^(52 - e))
      hSpos hfrac hlo2 hhi2
    rw [hfl]
    refine ⟨?_, hm1, hm2, rfl⟩
    simp only [dval]
    rw [hconv, hconv2]
    exact herr

/-- Binary64 rounding is monotone on positive rationals. -/
theorem flRat_mono (N1 D1 N2 D2 : Nat) (hN1 : 0 < N1) (hD1 : 0 < D1)
    (hN2 : 0 < N2) (hD2 : 0 < D2) (h : (N1:ℚ)/D1 ≤ (N2:ℚ)/D2) :
    dval (flRat N1 D1) ≤ dval (flRat N2 D2) := by
  obtain ⟨he1lo, he1hi⟩ := floorLog2Rat_spec N1 D1 hN1 hD1
  obtain ⟨he2lo, he2hi⟩ := floorLog2Rat_spec N2 D2 hN2 hD2
  obtain ⟨-, hm1ge, hm1le, hsnd1⟩ := flRat_master N1 D1 hN1 hD1
  obtain ⟨-, hm2ge, hm2le, hsnd2⟩ := flRat_master N2 D2 hN2 hD2
  have hD1q : (0:ℚ) < D1 := by exact_mod_cast hD1
  have hD2q : (0:ℚ) < D2 := by exact_mod_cast hD2
  have hee : floorLog2Rat N1 D1 ≤ floorLog2Rat N2 D2 := by
    by_contra hcon
    push_neg at hcon
    have hz : (2:ℚ) ^ (floorLog2Rat N2 D2 + 1) ≤ 2 ^ floorLog2Rat N1 D1 :=
      zpow_le_zpow_right₀ (by norm_num) (by omega)
    linarith
  rcases lt_or_eq_of_le hee with hlt | heq
  · calc dval (flRat N1 D1) = ((flRat N1 D1).1 : ℚ) * 2 ^ ((flRat N1 D1).2 - 52) := rfl
      _ ≤ (2:ℚ)^(53:ℕ) * 2 ^ ((flRat N1 D1).2 - 52) := by
          apply mul_le_mul_of_nonneg_right _ (by positivity)
          exact_mod_cast hm1le
      _ = 2 ^ (floorLog2Rat N1 D1 + 1) := by
          rw [hsnd1, ← zpow_natCast (2:ℚ) 53, ← zpow_add₀ (by norm_num : (2:ℚ) ≠ 0)]
          congr 1
          push_cast
          ring
      _ ≤ 2 ^ floorLog2Rat N2 D2 := zpow_le_zpow_right₀ (by norm_num) (by omega)
      _ = (2:ℚ)^(52:ℕ) * 2 ^ (floorLog2Rat N2 D2 - 52) := by
          rw [← zpow_natCast (2:ℚ) 52, ← zpow_add₀ (by norm_num : (2:ℚ) ≠ 0)]
          congr 1
          push_cast
          ring
      _ ≤ ((flRat N2 D2).1 : ℚ) * 2 ^ ((flRat N2 D2).2 - 52) := by
          rw [hsnd2]
          apply mul_le_mul_of_nonneg_right _ (by positivity)
          exact_mod_cast hm2ge
      _ = dval (flRat N2 D2) := rfl
  · have hcross : N1 * D2 ≤ N2 * D1 := by
      rw [div_le_div_iff hD1q hD2q] at h
      exact_mod_cast h
    have hpow : (0:ℚ) ≤ (2:ℚ) ^ (floorLog2Rat N1 D1 - 52) := by positivity
    by_cases hs : 0 ≤ 52 - floorLog2Rat N1 D1
    · have hfl1 := flRat_eq_pos N1 D1 hs
      have hfl2 := flRat_eq_pos N2 D2 (by rw [← heq]; exact hs)
      have hcross2 : N1 * 2 ^ (52 - floorLog2Rat N1 D1).toNat * D2
          ≤ N2 * 2 ^ (52 - floorLog2Rat N1 D1).toNat * D1 := by
        have e1 : N1 * 2 ^ (52 - floorLog2Rat N1 D1).toNat * D2
            = N1 * D2 * 2 ^ (52 - floorLog2Rat N1 D1).toNat := by ring
        have e2 : N2 * 2 ^ (52 - floorLog2Rat N1 D1).toNat * D1
            = N2 * D1 * 2 ^ (52 - floorLog2Rat N1 D1).toNat := by ring
        rw [e1, e2]
        exact Nat.mul_le_mul_right _ hcross
      have hmle := rnd_mono _ D1 _ D2 hD1 hD2 hcross2
      rw [hfl1, hfl2]
      simp only [dval]
      rw [← heq]
      apply mul_le_mul_of_nonneg_right _ hpow
      exact_mod_cast hmle
    · have hfl1 := flRat_eq_neg N1 D1 hs
      have hfl2 := flRat_eq_neg N2 D2 (by rw [← heq]; exact hs)
      have hcross2 : N1 * (D2 * 2 ^ (-(52 - floorLog2Rat N1 D1)).toNat)
          ≤ N2 * (D1 * 2 ^ (-(52 - floorLog2Rat N1 D1)).toNat) := by
        have e1 : N1 * (D2 * 2 ^ (-(52 - floorLog2Rat N1 D1)).toNat)
            = N1 * D2 * 2 ^ (-(52 - floorLog2Rat N1 D1)).toNat := by ring
        have e2 : N2 * (D1 * 2 ^ (-(52 - floorLog2Rat N1 D1)).toNat)
            = N2 * D1 * 2 ^ (-(52 - floorLog2Rat N1 D1)).toNat := by ring
        rw [e1, e2]
        exact Nat.mul_le_mul_right _ hcross
      have hD1p : 0 < D1 * 2 ^ (-(52 - floorLog2Rat N1 D1)).toNat := by positivity
      have hD2p : 0 < D2 * 2 ^ (-(52 - floorLog2Rat N1 D1)).toNat := by positivity
      have hmle := rnd_mono N1 _ N2 _ hD1p hD2p hcross2
      rw [hfl1, hfl2]
      simp only [dval]
      rw [← heq]
      apply mul_le_mul_of_nonneg_right _ hpow
      exact_mod_cast hmle

/-- Positivity and value of the exact `* 100` fraction. -/
theorem mul100Pair_spec (p : Nat × Int) :
    ((mul100Pair p).1 : ℚ) / ((mul100Pair p).2 : ℚ) = 100 * dval p
    ∧ 0 < (mul100Pair p).2 ∧ (0 < p.1 → 0 < (mul100Pair p).1) := by
  unfold mul100Pair dval
  by_cases hc : 0 ≤ p.2 - 52
  · rw [if_pos hc]
    refine ⟨?_, by norm_num, fun hp => by positivity⟩
    push_cast
    rw [← zpow_natCast (2:ℚ) ((p.2 - 52).toNat), Int.toNat_of_nonneg hc]
    field_simp
    ring
  · rw [if_neg hc]
    have hpos : (0:ℚ) < (2:ℚ) ^ ((52 - p.2).toNat) := by positivity
    refine ⟨?_, by positivity, fun hp => by positivity⟩
    push_cast
    rw [← zpow_natCast (2:ℚ) ((52 - p.2).toNat), Int.toNat_of_nonneg (by omega)]
    rw [show (2:ℚ) ^ (p.2 - 52) = ((2:ℚ) ^ (52 - p.2))⁻¹ from by
      rw [← zpow_neg]; congr 1; ring]
    have hne : (2:ℚ) ^ (52 - p.2) ≠ 0 := by positivity
    field_simp

/-- The truncation step computes the floor of the denoted value. -/
theorem truncPair_floor (p : Nat × Int) : (truncPair p : ℤ) = ⌊dval p⌋ := by
  unfold truncPair dval
  by_cases hc : 0 ≤ p.2 - 52
  · rw [if_pos hc]
    have hkey : (p.1 : ℚ) * 2 ^ (p.2 - 52) = ((p.1 * 2 ^ (p.2 - 52).toNat : ℕ) : ℚ) := by
      push_cast
      rw [← zpow_natCast (2:ℚ) ((p.2 - 52).toNat), Int.toNat_of_nonneg hc]
    rw [hkey, Int.floor_natCast]
  · rw [if_neg hc]
    set k := (52 - p.2).toNat with hk
    have hkq : ((52:ℤ) - p.2) = (k : ℤ) := by rw [hk]; rw [Int.toNat_of_nonneg (by omega)]
    have hkey : (p.1 : ℚ) * 2 ^ (p.2 - 52) = (p.1 : ℚ) / ((2 ^ k : ℕ) : ℚ) := by
      rw [show (2:ℚ) ^ (p.2 - 52) = ((2:ℚ) ^ ((52:ℤ) - p.2))⁻¹ from by
        rw [← zpow_neg]; congr 1; ring]
      rw [hkq, zpow_natCast]
      push_cast
      ring
    rw [hkey]
    -- the floor of `(m : ℚ) / 2 ^ k` is the natural division `m / 2 ^ k`
    have h2k : (0:ℚ) < ((2 ^ k : ℕ) : ℚ) := by positivity
    rw [eq_comm, Int.floor_eq_iff]
    have hmod : 2 ^ k * (p.1 / 2 ^ k) + p.1 % 2 ^ k = p.1 := Nat.div_add_mod p.1 (2 ^ k)
    have hr : p.1 % 2 ^ k < 2 ^ k := Nat.mod_lt _ (by positivity)
    constructor
    · rw [le_div_iff h2k]
      have hnat : p.1 / 2 ^ k * 2 ^ k ≤ p.1 := Nat.div_mul_le_self p.1 (2 ^ k)
      exact_mod_cast hnat
    · rw [div_lt_iff h2k]
      have he2 : (p.1 / 2 ^ k + 1) * 2 ^ k = 2 ^ k * (p.1 / 2 ^ k) + 2 ^ k := by ring
      have hnat : p.1 < (p.1 / 2 ^ k + 1) * 2 ^ k := by omega
      exact_mod_cast hnat

/-- The mantissa of `flRat` on a zero numerator is zero. -/
theorem flRat_fst_zero (D : Nat) (hD : 0 < D) : (flRat 0 D).1 = 0 := by
  by_cases hs : 0 ≤ 52 - floorLog2Rat 0 D
  · rw [flRat_eq_pos 0 D hs]
    show rndHalfEven (0 * 2 ^ (52 - floorLog2Rat 0 D).toNat) D = 0
    rw [Nat.zero_mul]
    exact rnd_zero D hD
  · rw [flRat_eq_neg 0 D hs]
    exact rnd_zero _ (by positivity)

/-- The `* 100` pair of a zero mantissa has zero numerator. -/
theorem mul100Pair_fst_zero (p : Nat × Int) (h : p.1 = 0) : (mul100Pair p).1 = 0 := by
  unfold mul100Pair
  by_cases hc : 0 ≤ p.2 - 52
  · rw [if_pos hc]
    show 100 * p.1 * 2 ^ (p.2 - 52).toNat = 0
    rw [h]
    ring
  · rw [if_neg hc]
    show 100 * p.1 = 0
    rw [h]

/-- The `* 100` pair always has a positive denominator. -/
theorem mul100Pair_snd_pos (p : Nat × Int) : 0 < (mul100Pair p).2 := by
  unfold mul100Pair
  by_cases hc : 0 ≤ p.2 - 52
  · rw [if_pos hc]
    norm_num
  · rw [if_neg hc]
    positivity

/-- Truncation of a zero mantissa is zero. -/
theorem truncPair_fst_zero (p : Nat × Int) (h : p.1 = 0) : truncPair p = 0 := by
  unfold truncPair
  by_cases hc : 0 ≤ p.2 - 52
  · rw [if_pos hc, h]
    exact Nat.zero_mul _
  · rw [if_neg hc, h]
    exact Nat.zero_div _

/-- Zero downloaded bytes give exactly `0.0` in floats: the pipeline returns `0`. -/
theorem pyFloatPct_zero (t : Nat) (ht : 0 < t) : pyFloatPct 0 t = 0 := by
  show truncPair (flRat (mul100Pair (flRat 0 t)).1 (mul100Pair (flRat 0 t)).2) = 0
  rw [mul100Pair_fst_zero _ (flRat_fst_zero t ht)]
  exact truncPair_fst_zero _ (flRat_fst_zero _ (mul100Pair_snd_pos _))

/-- Natural division is the floor of the rational quotient. -/
theorem natDiv_eq_floor (a b : Nat) (hb : 0 < b) :
    ((a / b : ℕ) : ℤ) = ⌊(a:ℚ)/b⌋ := by
  have hbq : (0:ℚ) < b := by exact_mod_cast hb
  rw [eq_comm, Int.floor_eq_iff]
  have hmod : b * (a / b) + a % b = a := Nat.div_add_mod a b
  have hr : a % b < b := Nat.mod_lt _ hb
  constructor
  · rw [le_div_iff hbq]
    have hnat : a / b * b ≤ a := Nat.div_mul_le_self a b
    exact_mod_cast hnat
  · rw [div_lt_iff hbq]
    have he2 : (a / b + 1) * b = b * (a / b) + b := by ring
    have hnat : a < (a / b + 1) * b := by omega
    exact_mod_cast hnat

/-- Per-invocation correctness of the float pipeline for `1 ≤ d ≤ t`: the
emitted percent is at most `100` and within one of the exact
`d * 100 / t`. -/
theorem pyFloatPct_spec (d t : Nat) (hd : 0 < d) (hdt : d ≤ t) :
    pyFloatPct d t ≤ 100
    ∧ ((d * 100 / t : ℕ) : ℤ) - 1 ≤ (pyFloatPct d t : ℤ)
    ∧ (pyFloatPct d t : ℤ) ≤ ((d * 100 / t : ℕ) : ℤ) + 1 := by
  have ht : 0 < t := lt_of_lt_of_le hd hdt
  have htq : (0:ℚ) < t := by exact_mod_cast ht
  obtain ⟨herr1, hm1ge, hm1le, hsnd1⟩ := flRat_master d t hd ht
  have hx1 : (d:ℚ)/t ≤ 1 := by
    rw [div_le_one htq]
    exact_mod_cast hdt
  obtain ⟨he1lo, he1hi⟩ := floorLog2Rat_spec d t hd ht
  have he1 : floorLog2Rat d t ≤ 0 := by
    by_contra hcon
    push_neg at hcon
    have hz : (2:ℚ)^(1:ℤ) ≤ (2:ℚ)^(floorLog2Rat d t) :=
      zpow_le_zpow_right₀ (by norm_num) (by omega)
    rw [zpow_one] at hz
    linarith
  have herr1b : |dval (flRat d t) - (d:ℚ)/t| ≤ (2:ℚ)^(-53:ℤ) :=
    le_trans herr1 (zpow_le_zpow_right₀ (by norm_num) (by omega))
  obtain ⟨habs1a, habs1b⟩ := abs_le.mp herr1b
  have hsmall53 : (2:ℚ)^(-53:ℤ) ≤ (2:ℚ)^(-9:ℤ) :=
    zpow_le_zpow_right₀ (by norm_num) (by omega)
  have h9 : (2:ℚ)^(-9:ℤ) = 1/512 := by norm_num
  have hb53 : (2:ℚ)^(-53:ℤ) ≤ 1/512 := by rw [← h9]; exact hsmall53
  obtain ⟨hval2, hD2pos, hN2pos'⟩ := mul100Pair_spec (flRat d t)
  have hN2pos : 0 < (mul100Pair (flRat d t)).1 :=
    hN2pos' (lt_of_lt_of_le (by norm_num) hm1ge)
  obtain ⟨herr2, hm2ge, hm2le, hsnd2⟩ :=
    flRat_master (mul100Pair (flRat d t)).1 (mul100Pair (flRat d t)).2 hN2pos hD2pos
  obtain ⟨he2lo, he2hi⟩ :=
    floorLog2Rat_spec (mul100Pair (flRat d t)).1 (mul100Pair (flRat d t)).2 hN2pos hD2pos
  rw [hval2] at herr2 he2lo he2hi
  have he2 : floorLog2Rat (mul100Pair (flRat d t)).1 (mul100Pair (flRat d t)).2 ≤ 6 := by
    by_contra hcon
    push_neg at hcon
    have hz : (2:ℚ)^(7:ℤ) ≤
        (2:ℚ)^(floorLog2Rat (mul100Pair (flRat d t)).1 (mul100Pair (flRat d t)).2) :=
      zpow_le_zpow_right₀ (by norm_num) (by omega)
    have h128 : (2:ℚ)^(7:ℤ) = 128 := by norm_num
    have hy128 : (128:ℚ) ≤ 100 * dval (flRat d t) := by
      rw [← h128]
      exact le_trans hz he2lo
    have hq1 : dval (flRat d t) - (d:ℚ)/t ≤ 1/512 := le_trans habs1b hb53
    linarith [hy128, hq1, hx1]
  have herr2b : |dval (flRat (mul100Pair (flRat d t)).1 (mul100Pair (flRat d t)).2)
      - 100 * dval (flRat d t)| ≤ (2:ℚ)^(-47:ℤ) :=
    le_trans herr2 (zpow_le_zpow_right₀ (by norm_num) (by omega))
  obtain ⟨habs2a, habs2b⟩ := abs_le.mp herr2b
  have hsmall47 : (2:ℚ)^(-47:ℤ) ≤ (2:ℚ)^(-2:ℤ) :=
    zpow_le_zpow_right₀ (by norm_num) (by omega)
  have h2q : (2:ℚ)^(-2:ℤ) = 1/4 := by norm_num
  have hb47 : (2:ℚ)^(-47:ℤ) ≤ 1/4 := by rw [← h2q]; exact hsmall47
  -- zpow-free error bounds
  have herr1c : dval (flRat d t) - (d:ℚ)/t ≤ 1/512 := le_trans habs1b hb53
  have herr1d : -(1/512 : ℚ) ≤ dval (flRat d t) - (d:ℚ)/t :=
    le_trans (neg_le_neg hb53) habs1a
  have herr2c : dval (flRat (mul100Pair (flRat d t)).1 (mul100Pair (flRat d t)).2)
      - 100 * dval (flRat d t) ≤ 1/4 := le_trans habs2b hb47
  have herr2d : -(1/4 : ℚ) ≤ dval (flRat (mul100Pair (flRat d t)).1 (mul100Pair (flRat d t)).2)
      - 100 * dval (flRat d t) :=
    le_trans (neg_le_neg hb47) habs2a
  -- total distance from the exact percent is at most 1/2
  have hclose1 : dval (flRat (mul100Pair (flRat d t)).1 (mul100Pair (flRat d t)).2)
      ≤ 100 * ((d:ℚ)/t) + 1/2 := by linarith [herr1c, herr2c]
  have hclose2 : 100 * ((d:ℚ)/t) - 1/2
      ≤ dval (flRat (mul100Pair (flRat d t)).1 (mul100Pair (flRat d t)).2) := by
    linarith [herr1d, herr2d]
  -- the exact percent's floor is the natural division
  have hF : ((d * 100 / t : ℕ) : ℤ) = ⌊100 * ((d:ℚ)/t)⌋ := by
    rw [natDiv_eq_floor (d * 100) t ht]
    congr 1
    push_cast
    ring
  have hpy : (pyFloatPct d t : ℤ)
      = ⌊dval (flRat (mul100Pair (flRat d t)).1 (mul100Pair (flRat d t)).2)⌋ :=
    truncPair_floor _
  refine ⟨?_, ?_, ?_⟩
  · have hlt : dval (flRat (mul100Pair (flRat d t)).1 (mul100Pair (flRat d t)).2)
        < 101 := by linarith [hclose1, hx1]
    have hfl : ⌊dval (flRat (mul100Pair (flRat d t)).1 (mul100Pair (flRat d t)).2)⌋
        < 101 := by
      rw [Int.floor_lt]
      exact_mod_cast hlt
    omega
  · have hle : 100 * ((d:ℚ)/t)
        ≤ dval (flRat (mul100Pair (flRat d t)).1 (mul100Pair (flRat d t)).2) + 1 := by
      linarith
    have hfl : ⌊100 * ((d:ℚ)/t)⌋
        ≤ ⌊dval (flRat (mul100Pair (flRat d t)).1 (mul100Pair (flRat d t)).2)⌋ + 1 := by
      calc ⌊100 * ((d:ℚ)/t)⌋
          ≤ ⌊dval (flRat (mul100Pair (flRat d t)).1 (mul100Pair (flRat d t)).2) + 1⌋ :=
            Int.floor_le_floor hle
        _ = ⌊dval (flRat (mul100Pair (flRat d t)).1 (mul100Pair (flRat d t)).2)⌋ + 1 :=
            Int.floor_add_one _
    omega
  · have hle : dval (flRat (mul100Pair (flRat d t)).1 (mul100Pair (flRat d t)).2)
        ≤ 100 * ((d:ℚ)/t) + 1 := by
      linarith
    have hfl : ⌊dval (flRat (mul100Pair (flRat d t)).1 (mul100Pair (flRat d t)).2)⌋
        ≤ ⌊100 * ((d:ℚ)/t)⌋ + 1 := by
      calc ⌊dval (flRat (mul100Pair (flRat d t)).1 (mul100Pair (flRat d t)).2)⌋
          ≤ ⌊100 * ((d:ℚ)/t) + 1⌋ := Int.floor_le_floor hle
        _ = ⌊100 * ((d:ℚ)/t)⌋ + 1 := Int.floor_add_one _
    omega

/-- The float pipeline is monotone in the downloaded bytes. -/
theorem pyFloatPct_mono (d dp t : Nat) (ht : 0 < t) (hdd : d ≤ dp) (hdp : dp ≤ t) :
    pyFloatPct d t ≤ pyFloatPct dp t := by
  rcases Nat.eq_zero_or_pos d with hd0 | hd
  · rw [hd0, pyFloatPct_zero t ht]
    exact Nat.zero_le _
  have hdpp : 0 < dp := lt_of_lt_of_le hd hdd
  have htq : (0:ℚ) < t := by exact_mod_cast ht
  have h1 : dval (flRat d t) ≤ dval (flRat dp t) := by
    apply flRat_mono d t dp t hd ht hdpp ht
    exact (div_le_div_right htq).mpr (by exact_mod_cast hdd)
  obtain ⟨-, hm1ge, -, -⟩ := flRat_master d t hd ht
  obtain ⟨-, hm1geP, -, -⟩ := flRat_master dp t hdpp ht
  obtain ⟨hval2, hD2pos, hN2pos'⟩ := mul100Pair_spec (flRat d t)
  obtain ⟨hval2P, hD2posP, hN2posP'⟩ := mul100Pair_spec (flRat dp t)
  have hN2 : 0 < (mul100Pair (flRat d t)).1 :=
    hN2pos' (lt_of_lt_of_le (by norm_num) hm1ge)
  have hN2P : 0 < (mul100Pair (flRat dp t)).1 :=
    hN2posP' (lt_of_lt_of_le (by norm_num) hm1geP)
  have h2 : dval (flRat (mul100Pair (flRat d t)).1 (mul100Pair (flRat d t)).2)
      ≤ dval (flRat (mul100Pair (flRat dp t)).1 (mul100Pair (flRat dp t)).2) := by
    apply flRat_mono _ _ _ _ hN2 hD2pos hN2P hD2posP
    rw [hval2, hval2P]
    linarith
  have hfl : (pyFloatPct d t : ℤ) ≤ (pyFloatPct dp t : ℤ) := by
    have e1 : (pyFloatPct d t : ℤ)
        = ⌊dval (flRat (mul100Pair (flRat d t)).1 (mul100Pair (flRat d t)).2)⌋ :=
      truncPair_floor _
    have e2 : (pyFloatPct dp t : ℤ)
        = ⌊dval (flRat (mul100Pair (flRat dp t)).1 (mul100Pair (flRat dp t)).2)⌋ :=
      truncPair_floor _
    rw [e1, e2]
    exact Int.floor_le_floor h2
  exact_mod_cast hfl

/-- In-range invocations emit the Python float percent on the downloaded
bytes `total - bytes_remaining`. -/
theorem progressValue_in_range (total r : Nat) (hr : r ≤ total) :
    progressValue total r = (pyFloatPct (total - r) total : Int) := by
  unfold progressValue
  rw [if_pos hr]

/-- Along a transfer with non-increasing remaining bytes that never exceed
the total, the emitted percents are pairwise non-decreasing. -/
theorem pvals_monotone (total : Nat) (terr : Option String) (events : List Nat)
    (ht : total ≠ 0) (hall : ∀ r ∈ events, r ≤ total)
    (hpw : events.Pairwise (fun a b => b ≤ a)) :
    (pvals (emitLoop total terr events).1).Pairwise (fun p q => p ≤ q) := by
  rw [emitLoop_pvals total terr ht events]
  have hpw2 : events.Pairwise (fun a b => b ≤ a ∧ a ≤ total ∧ b ≤ total) :=
    hpw.imp_of_mem (fun ha hb hba => ⟨hba, hall _ ha, hall _ hb⟩)
  refine List.Pairwise.map (fun r : Nat => progressValue total r) ?_ hpw2
  intro a b hab
  obtain ⟨hba, hat, hbt⟩ := hab
  dsimp only
  rw [progressValue_in_range total a hat, progressValue_in_range total b hbt]
  have hm : pyFloatPct (total - a) total ≤ pyFloatPct (total - b) total :=
    pyFloatPct_mono _ _ _ (Nat.pos_of_ne_zero ht) (by omega) (by omega)
  exact_mod_cast hm

/-- The spec's clamped floor percent collapses to the plain natural
division when `d ≤ t`. -/
theorem specPercent_eq (d t : Nat) (ht : t ≠ 0) (hd : d ≤ t) :
    specPercent d t = ((d * 100 / t : ℕ) : ℤ) := by
  unfold specPercent clamp100
  have hb := natPct_le_100 d t ht hd
  rw [max_eq_right (Int.ofNat_nonneg _), min_eq_right (by exact_mod_cast hb)]

/-! ## Claims -/

/-- Claim C1: for every submitted job, `Worker.run` emits exactly one
terminal (`finished`) notification, it is the last notification of the job's
stream, and no progress or other notification for that job follows it — on
every path (resolution failure, no-stream failure, transfer failure,
success): everything before the terminal notification is a `progress`. -/
theorem worker_run_single_terminal (w : Worker) (env : MediaEnv) :
    (Worker.run w env).countP isFinishedB = 1
    ∧ (∃ o, (Worker.run w env).getLast? = some (Notif.finished o))
    ∧ (Worker.run w env).dropLast.all isProgressB = true := by
  obtain ⟨ce, sr, ev, te⟩ := env
  cases ce with
  | some d => exact ⟨rfl, ⟨_, rfl⟩, rfl⟩
  | none =>
    cases sr with
    | error d => exact ⟨rfl, ⟨_, rfl⟩, rfl⟩
    | ok streams =>
      simp only [Worker.run]
      cases selectStream w.fmt streams with
      | none => exact ⟨rfl, ⟨_, rfl⟩, rfl⟩
      | some st =>
        dsimp only
        cases (emitLoop st.filesize te ev).2 with
        | none =>
          dsimp only
          obtain ⟨h1, h2, h3⟩ := progress_then_terminal (emitLoop st.filesize te ev).1
            (Outcome.success w.out_path) (emitLoop_no_finished _ _ _)
            (emitLoop_all_progress _ _ _)
          exact ⟨h1, ⟨_, h2⟩, h3⟩
        | some d =>
          dsimp only
          obtain ⟨h1, h2, h3⟩ := progress_then_terminal (emitLoop st.filesize te ev).1
            (Outcome.transferFailure d) (emitLoop_no_finished _ _ _)
            (emitLoop_all_progress _ _ _)
          exact ⟨h1, ⟨_, h2⟩, h3⟩

/-- Claim C2, counterexample: the fourth spec test vector fails on the code —
`"99999"` is a five-digit port, so the pattern `(?:\:[0-9]{1,5})?` accepts it
and `is_valid_proxy "http://host:99999"` is `true`, not `false`. -/
theorem proxy_port_99999_accepted :
    is_valid_proxy "http://host:99999" = true := by decide

/-- Claim C2 as amended: the proxy validator satisfies
`validate("") = true`, `validate("http://127.0.0.1:8881") = true`,
`validate("ftp://x") = false`, and `validate("http://host:99999") = true`
(a five-digit port is accepted by the pattern's literal behaviour). -/
theorem proxy_test_vectors :
    is_valid_proxy "" = true
    ∧ is_valid_proxy "http://127.0.0.1:8881" = true
    ∧ is_valid_proxy "ftp://x" = false
    ∧ is_valid_proxy "http://host:99999" = true := by decide

/-- Claim C3, counterexample: the claimed equality
`percent = floor(bytesDownloaded / totalBytes * 100)` (clamped) is false of
the program.  At `totalBytes = 100`, `bytes_remaining = 42`
(`bytesDownloaded = 58`), the program computes `int(58 / 100 * 100)` in
binary64 floats: `58 / 100` rounds to a double slightly below `0.58`, so
the product truncates to `57`, while the spec formula gives `58`. -/
theorem on_progress_not_exact_floor :
    onProgressEmit 100 42 = some 57 ∧ specPercent (100 - 42) 100 = 58 := by
  constructor
  · rfl
  · decide

/-- Claim C3 as amended: every progress-callback invocation with
`0 ≤ bytesDownloaded ≤ totalBytes` (i.e. `bytes_remaining = r ≤ t`, with
`t ≠ 0` so the division is defined) emits the binary64 float truncation
`int(bytesDownloaded / totalBytes * 100)`, which lies within `[0, 100]` and
within ONE of `floor(bytesDownloaded / totalBytes * 100)` clamped to
`[0, 100]` (equality can fail by exactly one in either direction, due to
binary64 double rounding); and across any callback sequence with
non-decreasing `bytesDownloaded` (non-increasing `bytes_remaining`), the
emitted percent values are non-decreasing. -/
theorem on_progress_float_semantics :
    (∀ t r : Nat, t ≠ 0 → r ≤ t →
        ∃ p : Int, onProgressEmit t r = some p
          ∧ 0 ≤ p ∧ p ≤ 100
          ∧ specPercent (t - r) t - 1 ≤ p ∧ p ≤ specPercent (t - r) t + 1)
    ∧ (∀ (total : Nat) (terr : Option String) (events : List Nat),
        total ≠ 0 → (∀ r ∈ events, r ≤ total) →
        events.Pairwise (fun a b => b ≤ a) →
        (pvals (emitLoop total terr events).1).Pairwise (fun p q => p ≤ q)) := by
  constructor
  · intro t r ht hr
    refine ⟨(pyFloatPct (t - r) t : Int), ?_, Int.ofNat_nonneg _, ?_, ?_, ?_⟩
    · unfold onProgressEmit
      rw [if_neg ht, progressValue_in_range t r hr]
    · rcases Nat.eq_zero_or_pos (t - r) with h0 | hpos
      · rw [h0, pyFloatPct_zero t (Nat.pos_of_ne_zero ht)]
        norm_num
      · obtain ⟨hle, -, -⟩ := pyFloatPct_spec (t - r) t hpos (Nat.sub_le t r)
        exact_mod_cast hle
    · rw [specPercent_eq (t - r) t ht (Nat.sub_le t r)]
      rcases Nat.eq_zero_or_pos (t - r) with h0 | hpos
      · rw [h0, pyFloatPct_zero t (Nat.pos_of_ne_zero ht)]
        simp
      · obtain ⟨-, hlo, -⟩ := pyFloatPct_spec (t - r) t hpos (Nat.sub_le t r)
        exact hlo
    · rw [specPercent_eq (t - r) t ht (Nat.sub_le t r)]
      rcases Nat.eq_zero_or_pos (t - r) with h0 | hpos
      · rw [h0, pyFloatPct_zero t (Nat.pos_of_ne_zero ht)]
        simp
      · obtain ⟨-, -, hhi⟩ := pyFloatPct_spec (t - r) t hpos (Nat.sub_le t r)
        exact hhi
  · intro total terr events ht hall hpw
    exact pvals_monotone total terr events ht hall hpw

/-- Claim C3 (amended), witness: the counterexample invocation itself
(`total = 200` would be exact, so the 58/100 case is used), plus a concrete
transfer with remaining bytes `200, 100, 0`. -/
theorem on_progress_float_semantics_w :
    (∃ p : Int, onProgressEmit 100 42 = some p
        ∧ 0 ≤ p ∧ p ≤ 100
        ∧ specPercent (100 - 42) 100 - 1 ≤ p ∧ p ≤ specPercent (100 - 42) 100 + 1)
    ∧ (pvals (emitLoop 200 none [200, 100, 0]).1).Pairwise (fun p q => p ≤ q) :=
  ⟨on_progress_float_semantics.1 100 42 (by decide) (by decide),
   on_progress_float_semantics.2 200 none [200, 100, 0] (by decide) (by decide) (by decide)⟩

/-- Claim C4: stream selection filters the resolved descriptors by the
requested kind and picks a filtered descriptor with the maximum quality
rank; in the spec's scenario — an audio job over audio-only descriptors of
bitrates 128 and 256 plus one video descriptor — the 256-bitrate descriptor
is selected and the video descriptor is removed by the filter. -/
theorem selectStream_filters_and_picks_max :
    (∀ (fmt : Fmt) (streams : List StreamDesc) (s : StreamDesc),
        selectStream fmt streams = some s →
        s ∈ filteredStreams fmt streams
        ∧ ∀ t ∈ filteredStreams fmt streams, qualityKey fmt t ≤ qualityKey fmt s)
    ∧ selectStream Fmt.audio [audio128, audio256, video720] = some audio256
    ∧ filteredStreams Fmt.audio [audio128, audio256, video720]
        = [audio128, audio256] := by
  refine ⟨?_, by decide, by decide⟩
  intro fmt streams s h
  simp only [selectStream] at h
  exact ⟨maxByLast_mem _ _ _ h, maxByLast_le _ _ _ h⟩

/-- Claim C4, witness: the general part of the selection theorem applied to
the spec scenario. -/
theorem selectStream_filters_and_picks_max_w :
    audio256 ∈ filteredStreams Fmt.audio [audio128, audio256, video720]
    ∧ ∀ t ∈ filteredStreams Fmt.audio [audio128, audio256, video720],
        qualityKey Fmt.audio t ≤ qualityKey Fmt.audio audio256 :=
  selectStream_filters_and_picks_max.1 Fmt.audio
    [audio128, audio256, video720] audio256 (by decide)

/-- Claim C5: if the `YouTube(...)` constructor raises (resolution failure),
the job's stream is exactly one `finished(resolutionFailure)` notification:
no progress notification is ever emitted and no selection or transfer step
contributes anything, whatever the rest of the environment would have
done. -/
theorem resolution_failure_terminal (w : Worker) (d : String)
    (sr : Except String (List StreamDesc)) (ev : List Nat) (te : Option String) :
    Worker.run w ⟨some d, sr, ev, te⟩
        = [Notif.finished (Outcome.resolutionFailure d)]
    ∧ pvals (Worker.run w ⟨some d, sr, ev, te⟩) = []
    ∧ (Worker.run w ⟨some d, sr, ev, te⟩).countP isFinishedB = 1 :=
  ⟨rfl, rfl, rfl⟩

/-- Claim C6: if filtering the resolved streams by the requested kind leaves
nothing, the job emits a single terminal failure whose reason is the
distinct `noStream` outcome (the `RuntimeError("Подходящий поток не найден")`
of line 79), not a `transferFailure`. -/
theorem no_stream_terminal (w : Worker) (streams : List StreamDesc)
    (ev : List Nat) (te : Option String)
    (h : filteredStreams w.fmt streams = []) :
    Worker.run w ⟨none, Except.ok streams, ev, te⟩
        = [Notif.finished Outcome.noStream]
    ∧ (∀ d, Outcome.noStream ≠ Outcome.transferFailure d)
    ∧ (Worker.run w ⟨none, Except.ok streams, ev, te⟩).countP isFinishedB = 1 := by
  have hsel : selectStream w.fmt streams = none := by
    unfold selectStream
    rw [h]
    rfl
  refine ⟨?_, fun d hc => Outcome.noConfusion hc, ?_⟩
  · simp only [Worker.run, hsel]
  · simp only [Worker.run, hsel]
    rfl

/-- Claim C6, witness: an audio job over a single video-only descriptor. -/
theorem no_stream_terminal_w :
    Worker.run ⟨ "u", "out", "", Fmt.audio⟩ ⟨none, Except.ok [video720], [5], none⟩
        = [Notif.finished Outcome.noStream]
    ∧ (∀ d, Outcome.noStream ≠ Outcome.transferFailure d)
    ∧ (Worker.run ⟨ "u", "out", "", Fmt.audio⟩
        ⟨none, Except.ok [video720], [5], none⟩).countP isFinishedB = 1 :=
  no_stream_terminal ⟨ "u", "out", "", Fmt.audio⟩ [video720] [5] none (by decide)

/-- Claim C7: `schedule_task` on a `DownloadThread` whose thread is not
running — the initial state before `start`, and the state after a completed
`stop` — always fails synchronously with the `RuntimeError` (no job is
handed to the loop, since no new state is produced). -/
theorem schedule_task_requires_running (s : DownloadThread) (job : Nat)
    (h : s.threadRunning = false) :
    DownloadThread.schedule_task s job = Except.error DTError.notRunning
    ∧ DownloadThread.initState.threadRunning = false
    ∧ (DownloadThread.stop (DownloadThread.start
        DownloadThread.initState)).threadRunning = false := by
  refine ⟨?_, rfl, rfl⟩
  simp [DownloadThread.schedule_task, h]

/-- Claim C7, witness: scheduling after `start` followed by a completed
`stop` fails with the not-running error. -/
theorem schedule_task_requires_running_w :
    DownloadThread.schedule_task (DownloadThread.stop (DownloadThread.start
        DownloadThread.initState)) 0 = Except.error DTError.notRunning
    ∧ DownloadThread.initState.threadRunning = false
    ∧ (DownloadThread.stop (DownloadThread.start
        DownloadThread.initState)).threadRunning = false :=
  schedule_task_requires_running _ 0 rfl

/-- Claim C8: `stop` is idempotent — from any state, a second `stop` has no
observable effect (and `stop` is a total function: it never raises). -/
theorem stop_idempotent (s : DownloadThread) :
    DownloadThread.stop (DownloadThread.stop s) = DownloadThread.stop s := by
  cases hL : s.hasLoop <;> cases hR : s.threadRunning <;>
    simp [DownloadThread.stop, hL, hR]

/-- Claim C9, counterexample: a second `start` on the already-running
executor raises nothing and changes nothing — `QThread.start` is a no-op on
a running thread — and only one background thread was ever spawned; no
`AlreadyStartedError` exists in the code. -/
theorem start_twice_silent :
    DownloadThread.start (DownloadThread.start DownloadThread.initState)
      = DownloadThread.start DownloadThread.initState
    ∧ (DownloadThread.start (DownloadThread.start
        DownloadThread.initState)).threadsSpawned = 1 := by decide

/-- Claim C9 as amended: calling `start()` on an executor that is already
running is a silent no-op: it does not raise and does not spawn a second
background thread. -/
theorem start_on_running_noop (s : DownloadThread) (h : s.threadRunning = true) :
    DownloadThread.start s = s := by
  simp [DownloadThread.start, h]

/-- Claim C9 (amended), witness: the second `start` after the first. -/
theorem start_on_running_noop_w :
    DownloadThread.start (DownloadThread.start DownloadThread.initState)
      = DownloadThread.start DownloadThread.initState :=
  start_on_running_noop (DownloadThread.start DownloadThread.initState) rfl

/-- Claim C10: `stop` before `start` is a silent no-op — `self.loop` is
still `None`, so the guard fails, nothing changes and nothing is raised. -/
theorem stop_before_start_noop :
    DownloadThread.stop DownloadThread.initState = DownloadThread.initState := by
  decide

end Ytd
